import Mathlib

/-!
Verification of the trader-cockpit filtering / status / sorting / aggregation
engine (src/lib/filters.ts and src/app/layout.tsx), shallowly embedded.

Modelling conventions:
* A JavaScript `Date`'s `getTime()` value is modelled as `JSTime := Option Int`
  (milliseconds since the epoch); `none` models `NaN` (an invalid date).
  JS relational operators on dates return `false` whenever either side is
  `NaN`, which the `jsLt` / `jsLe` functions reproduce.
* JS numbers used as weights/quantities are modelled as rationals `ℚ`
  (exact arithmetic; the source sums finitely many decimal literals).
* `Array.prototype.filter` is `List.filter`; `Array.prototype.sort` is a
  stable insertion sort (ES2019 requires sort stability; for a consistent
  comparator the stable sorted permutation is unique, so any stable sort is
  a faithful model).
-/

/-- Milliseconds of a JS date value; `none` models `NaN` (invalid date). -/
abbrev JSTime := Option Int

/-- JS `<` on date/number values: `false` when either side is `NaN`. -/
def jsLt : JSTime → JSTime → Bool
  | some a, some b => decide (a < b)
  | _, _ => false

/-- JS `<=` on date/number values: `false` when either side is `NaN`. -/
def jsLe : JSTime → JSTime → Bool
  | some a, some b => decide (a ≤ b)
  | _, _ => false

/-- Subtracting a (valid) reference time from a JS time; `NaN` propagates. -/
def jsSub (a : JSTime) (n : Int) : JSTime := a.map (· - n)

/-- Model of `windowEnd = new Date(now); windowEnd.setUTCDate(windowEnd.getUTCDate() + 7)`.
JS time has uniform 86400000 ms UTC days, so `setUTCDate(getUTCDate() + 7)`
adds exactly 7·86400000 ms (day-of-month overflow normalizes); on an invalid
date it stays invalid. -/
def jsAddWeek (t : JSTime) : JSTime := t.map (· + 604800000)

/-- The `Status` union from src/types.ts: `"Arrived" | "At sea" | "Scheduled"`. -/
inductive Status where
  | arrived
  | atSea
  | scheduled
deriving DecidableEq, Repr

/-- Rendering of a `Status` as the literal strings of src/types.ts. -/
def Status.toText : Status → String
  | .arrived => "Arrived"
  | .atSea => "At sea"
  | .scheduled => "Scheduled"

/-- Raw record (`PalletItem` of src/types.ts).  Only the fields the engine
reads are modelled.  `container_id` and `line_id` are `Option`-valued because
`SOURCE_DATA` guards them with `??` (the JSON loader tolerates missing
fields); the numeric quantity fields are `Option`-valued because every read
site guards them with `?? 0`. -/
structure PalletItem where
  shipment_id : String
  container_id : Option String
  container_code : String
  port_destination : String
  variety : String
  caliber_raw : String
  pack_format_raw : String
  etd : String
  eta : String
  box_count : Option ℚ
  box_weight_kg : Option ℚ
  line_weight_kg : Option ℚ
  line_id : Option Int
  pallet_pl_id : Option String
deriving DecidableEq, Repr

/-- Enriched row (`PalletRow & \x7b stableKey \x7d`, i.e. `EnrichedRow` of
src/app/layout.tsx): the raw fields plus parsed dates and the stable key. -/
structure PalletRow where
  shipment_id : String
  container_id : Option String
  container_code : String
  port_destination : String
  variety : String
  caliber_raw : String
  pack_format_raw : String
  etd : String
  eta : String
  box_count : Option ℚ
  box_weight_kg : Option ℚ
  line_weight_kg : Option ℚ
  line_id : Option Int
  pallet_pl_id : Option String
  etaDate : JSTime
  etdDate : JSTime
  stableKey : String
deriving DecidableEq, Repr

/-! ## JS date parsing (model of `new Date(string)`)

The engine only ever parses ISO strings of the shape
`YYYY-MM-DDTHH:MM:SS.sssZ` (the `toDateOrNull` helper appends such a suffix
itself).  The model accepts exactly that shape, with component range
validation as the ECMAScript ISO parser performs it, and yields `none`
(an invalid date) on anything else. -/

/-- Proleptic-Gregorian leap year. -/
def isLeapYear (y : Int) : Bool := (y % 4 == 0 && y % 100 != 0) || y % 400 == 0

/-- Number of days in month `m` (1-based) of year `y`. -/
def daysInMonth (y : Int) (m : Nat) : Nat :=
  if m = 2 then (if isLeapYear y then 29 else 28)
  else if m = 4 ∨ m = 6 ∨ m = 9 ∨ m = 11 then 30
  else 31

/-- Days from 1970-01-01 to year `y`, month `m` (1-based), day `d`
(Howard Hinnant's civil-days algorithm). -/
def daysFromCivil (y : Int) (m d : Nat) : Int :=
  let y' : Int := if m ≤ 2 then y - 1 else y
  let era : Int := Int.fdiv y' 400
  let yoe : Int := y' - era * 400
  let mp : Nat := if m ≤ 2 then m + 9 else m - 3
  let doy : Int := Int.fdiv (153 * (mp : Int) + 2) 5 + (d : Int) - 1
  let doe : Int := yoe * 365 + Int.fdiv yoe 4 - Int.fdiv yoe 100 + doy
  era * 146097 + doe - 719468

/-- Decimal value of an ASCII digit, `none` otherwise. -/
def digitVal (c : Char) : Option Nat :=
  if c.isDigit then some (c.toNat - 48) else none

/-- Epoch milliseconds of validated ISO components. -/
def msOfParts (y : Int) (mo d hh mi ss ms : Nat) : Int :=
  daysFromCivil y mo d * 86400000 + (hh : Int) * 3600000 + (mi : Int) * 60000
    + (ss : Int) * 1000 + (ms : Int)

/-- Model of JS `new Date(s).getTime()` for the ISO-with-millis shape
`YYYY-MM-DDTHH:MM:SS.sssZ`; any other input yields an invalid date. -/
def jsDateParse (s : String) : JSTime :=
  match s.data with
  | [y1, y2, y3, y4, s1, o1, o2, s2, d1, d2, tC,
     h1, h2, c1, i1, i2, c2, e1, e2, dotC, f1, f2, f3, zC] =>
    if s1 = '-' ∧ s2 = '-' ∧ tC = 'T' ∧ c1 = ':' ∧ c2 = ':' ∧
        dotC = '.' ∧ zC = 'Z' then
      match digitVal y1, digitVal y2, digitVal y3, digitVal y4,
            digitVal o1, digitVal o2, digitVal d1, digitVal d2,
            digitVal h1, digitVal h2, digitVal i1, digitVal i2,
            digitVal e1, digitVal e2, digitVal f1, digitVal f2, digitVal f3 with
      | some a, some b, some c, some d, some m1, some m2, some g1, some g2,
        some p1, some p2, some q1, some q2, some r1, some r2,
        some w1, some w2, some w3 =>
        let y : Int := ((a * 10 + b) * 10 + c) * 10 + d
        let mo := m1 * 10 + m2
        let dy := g1 * 10 + g2
        let hh := p1 * 10 + p2
        let mi := q1 * 10 + q2
        let ss := r1 * 10 + r2
        let ms := (w1 * 10 + w2) * 10 + w3
        if 1 ≤ mo ∧ mo ≤ 12 ∧ 1 ≤ dy ∧ dy ≤ daysInMonth y mo ∧
            hh ≤ 23 ∧ mi ≤ 59 ∧ ss ≤ 59 then
          some (msOfParts y mo dy hh mi ss ms)
        else none
      | _, _, _, _, _, _, _, _, _, _, _, _, _, _, _, _, _ => none
    else none
  | _ => none

/-! ## Filter engine (src/lib/filters.ts) -/

/-- The `FilterCriteria` interface of src/lib/filters.ts (the variant with ETA bounds). -/
structure FilterCriteria where
  port : String
  variety : String
  caliber : String
  etaFrom : String
  etaTo : String
  nextArrivalsOnly : Bool
deriving DecidableEq, Repr

/-- Model of `toDateOrNull`: `null` (outer `none`) on the empty string, otherwise a
parsed date — possibly invalid, which is still truthy in JS.  A value
without a `T` gets the UTC start-of-day / end-of-day suffix appended. -/
def toDateOrNull (value : String) (isEnd : Bool) : Option JSTime :=
  if value = "" then none
  else
    let suffix := if isEnd then "T23:59:59.999Z" else "T00:00:00.000Z"
    some (jsDateParse (value ++ (if value.contains 'T' then "" else suffix)))

/-- The predicate of the `items.filter` callback in `applyFilters`:
each `if … return false` guard in order. -/
def rowPasses (C : FilterCriteria) (etaFromDate etaToDate : Option JSTime)
    (now windowEnd : JSTime) (item : PalletRow) : Bool :=
  if C.port ≠ "" ∧ item.port_destination ≠ C.port then false
  else if C.variety ≠ "" ∧ item.variety ≠ C.variety then false
  else if C.caliber ≠ "" ∧ item.caliber_raw ≠ C.caliber then false
  else if (match etaFromDate with
           | none => false
           | some d => jsLt item.etaDate d) then false
  else if (match etaToDate with
           | none => false
           | some d => jsLt d item.etaDate) then false
  else if C.nextArrivalsOnly = true ∧
      (jsLt now item.etaDate && jsLe item.etaDate windowEnd) = false then
    false
  else true

/-- The `applyFilters` function of src/lib/filters.ts. -/
def applyFilters (items : List PalletRow) (C : FilterCriteria) (now : JSTime) :
    List PalletRow :=
  let etaFromDate := toDateOrNull C.etaFrom false
  let etaToDate := toDateOrNull C.etaTo true
  items.filter (rowPasses C etaFromDate etaToDate now (jsAddWeek now))

/-- The `computeStatus` function of src/lib/filters.ts. -/
def computeStatus (item : PalletRow) (now : JSTime) : Status :=
  if jsLt item.etaDate now then .arrived
  else if jsLe item.etdDate now && jsLe now item.etaDate then .atSea
  else .scheduled

/-- The `isEtaWithinSevenDays` helper of src/lib/filters.ts:
`diff > 0 && diff <= 7*24*60*60*1000` where `diff = eta - now` (false on
`NaN`). -/
def isEtaWithinSevenDays (etaDate now : JSTime) : Bool :=
  match etaDate, now with
  | some ea, some n => decide (0 < ea - n) && decide (ea - n ≤ 604800000)
  | _, _ => false

/-- The `hasEtaPassed` helper of src/lib/filters.ts. -/
def hasEtaPassed (etaDate now : JSTime) : Bool := jsLt etaDate now

/-! ## Dataset normalizer (src/app/layout.tsx, `SOURCE_DATA`) -/

/-- The line component of the stable key: `${item.line_id ?? index}`. -/
def lineKeyPart (it : PalletItem) (i : Nat) : String :=
  match it.line_id with
  | some l => toString l
  | none => toString i

/-- The container component of the stable key:
`${item.container_id ?? item.container_code}`. -/
def containerKeyPart (it : PalletItem) : String :=
  it.container_id.getD it.container_code

/-- The stable key
`${shipment_id}-${container_id ?? container_code}-${line_id ?? index}`. -/
def stableKeyOf (it : PalletItem) (i : Nat) : String :=
  it.shipment_id ++ "-" ++ containerKeyPart it ++ "-" ++ lineKeyPart it i

/-- One step of the `SOURCE_DATA` mapping: spread the item, parse the two
dates, attach the stable key. -/
def enrichOne (it : PalletItem) (i : Nat) : PalletRow :=
  { shipment_id := it.shipment_id
    container_id := it.container_id
    container_code := it.container_code
    port_destination := it.port_destination
    variety := it.variety
    caliber_raw := it.caliber_raw
    pack_format_raw := it.pack_format_raw
    etd := it.etd
    eta := it.eta
    box_count := it.box_count
    box_weight_kg := it.box_weight_kg
    line_weight_kg := it.line_weight_kg
    line_id := it.line_id
    pallet_pl_id := it.pallet_pl_id
    etaDate := jsDateParse it.eta
    etdDate := jsDateParse it.etd
    stableKey := stableKeyOf it i }

/-- The map `PALLET_ITEMS.map((item, index) => …)` with explicit index threading. -/
def sourceDataAux : Nat → List PalletItem → List PalletRow
  | _, [] => []
  | i, it :: rest => enrichOne it i :: sourceDataAux (i + 1) rest

/-- The `SOURCE_DATA` array as a function of the loaded records. -/
def sourceData (items : List PalletItem) : List PalletRow :=
  sourceDataAux 0 items

/-! ## Layout constants and the days-to-arrival derivation -/

/-- The constant `FIXED_NOW = new Date("2025-11-12T00:00:00Z")` (src/app/layout.tsx). -/
def FIXED_NOW : Int := daysFromCivil 2025 11 12 * 86400000

/-- The constant `ONE_DAY_MS = 24 * 60 * 60 * 1000`. -/
def ONE_DAY_MS : Int := 86400000

/-- Model of `Math.round(diff / ONE_DAY_MS)` for a finite `diff`:
`Math.round x = ⌊x + 1/2⌋`, computed exactly on the integers.  (The float
quotient can differ from the exact rational only within strictly less than
half an ulp, which cannot move it across a rounding boundary for the date
ranges representable here.) -/
def roundDayDiff (diff : Int) : Int :=
  Int.fdiv (2 * diff + ONE_DAY_MS) (2 * ONE_DAY_MS)

/-- Model of `Math.round` of a possibly-`NaN` millisecond difference divided by one
day; `NaN` propagates. -/
def jsRoundDay (t : JSTime) : JSTime := t.map roundDayDiff

/-- The `getDaysToArrival` helper of src/app/layout.tsx
(`Math.round((etaDate.getTime() - FIXED_NOW.getTime()) / ONE_DAY_MS)`,
`NaN` when the ETA is unparseable). -/
def getDaysToArrival (row : PalletRow) : JSTime :=
  jsRoundDay (jsSub row.etaDate FIXED_NOW)

/-! ## Sort engine (src/app/layout.tsx, `visibleRows` / `getComparableValue`) -/

/-- The sortable columns (`ColumnKey`). -/
inductive ColumnKey where
  | port_destination
  | days_to_arrival
  | variety
  | caliber_raw
  | pack_format_raw
  | box_count
  | box_weight_kg
  | line_weight_kg
  | status
  | pre_allocated
  | pallet_pl_id
deriving DecidableEq, Repr

/-- A JS comparison key as produced by `getComparableValue`: a number, the
number `NaN`, or a string.  (For any fixed column the produced keys are all
numbers or all strings, so the model only needs same-kind comparisons;
cross-kind JS comparisons never occur in the program.) -/
inductive CmpVal where
  | num (q : ℚ)
  | nan
  | str (s : String)
deriving DecidableEq, Repr

/-- JS `===` on comparison keys (`NaN === NaN` is false). -/
def jsStrictEq : CmpVal → CmpVal → Bool
  | .num a, .num b => decide (a = b)
  | .str a, .str b => decide (a = b)
  | _, _ => false

/-- Lexicographic strict comparison of character lists: the model of the JS
string relational operators (code-unit lexicographic). -/
def charListLt : List Char → List Char → Bool
  | [], [] => false
  | [], _ :: _ => true
  | _ :: _, [] => false
  | c :: cs, d :: ds =>
    if c < d then true else if d < c then false else charListLt cs ds

/-- JS `>` on comparison keys (false on `NaN`; string comparison is
lexicographic). -/
def jsGt : CmpVal → CmpVal → Bool
  | .num a, .num b => decide (b < a)
  | .str a, .str b => charListLt b.data a.data
  | _, _ => false

/-- Model of `String.prototype.toLowerCase()`: per-character lowercasing
(the engine's identifier fields are ASCII, where the two agree). -/
def jsToLower (s : String) : String := String.mk (s.data.map Char.toLower)

/-- The `getComparableValue` helper of src/app/layout.tsx.  `alloc` models the
session's `preAllocated` record looked up by stable key (absent keys are
false). -/
def getComparableValue (row : PalletRow) (alloc : String → Bool)
    (col : ColumnKey) : CmpVal :=
  match col with
  | .days_to_arrival =>
    match getDaysToArrival row with
    | none => .nan
    | some d => .num (d : ℚ)
  | .pre_allocated => .num (if alloc row.stableKey then 1 else 0)
  | .pallet_pl_id => .str (jsToLower (row.pallet_pl_id.getD ""))
  | .box_count => .num (row.box_count.getD 0)
  | .box_weight_kg => .num (row.box_weight_kg.getD 0)
  | .line_weight_kg => .num (row.line_weight_kg.getD 0)
  | .status => .str (computeStatus row (some FIXED_NOW)).toText
  | .port_destination => .str (jsToLower row.port_destination)
  | .variety => .str (jsToLower row.variety)
  | .caliber_raw => .str (jsToLower row.caliber_raw)
  | .pack_format_raw => .str (jsToLower row.pack_format_raw)

/-- Sort direction. -/
inductive SortDir where
  | asc
  | desc
deriving DecidableEq, Repr

/-- The comparator of `visibleRows`:
`aValue === bValue → 0`, `aValue > bValue → ±1`, otherwise `∓1`. -/
def sortCmp (alloc : String → Bool) (col : ColumnKey) (dir : SortDir)
    (a b : PalletRow) : Int :=
  let av := getComparableValue a alloc col
  let bv := getComparableValue b alloc col
  if jsStrictEq av bv then 0
  else if jsGt av bv then (if dir = .asc then 1 else -1)
  else (if dir = .asc then -1 else 1)

/-- Insert `a` before the first element it compares strictly below; ties and
incomparable pairs keep `a` after existing elements (stability). -/
def stableInsert (lt : α → α → Bool) (a : α) : List α → List α
  | [] => [a]
  | b :: l => if lt a b then a :: b :: l else b :: stableInsert lt a l

/-- Stable insertion sort, scanning the input left to right: the model of
`Array.prototype.sort` (stable since ES2019; see the header note). -/
def stableSort (lt : α → α → Bool) (l : List α) : List α :=
  l.foldl (fun acc a => stableInsert lt a acc) []

/-- The sort of `visibleRows`: `[...filteredRows].sort(comparator)`. -/
def sortRows (rows : List PalletRow) (alloc : String → Bool)
    (col : ColumnKey) (dir : SortDir) : List PalletRow :=
  stableSort (fun a b => decide (sortCmp alloc col dir a b < 0)) rows

/-! ## Aggregation/KPI engine (src/app/layout.tsx, `kpis` and
`arrivalsSummary`) -/

/-- The three KPI accumulators and the two derived percentages. -/
structure Kpis where
  totalKg : ℚ
  preAllocatedKg : ℚ
  unallocatedKg7d : ℚ
  pctPreAllocated : ℚ
  pctUnallocated7d : ℚ
deriving DecidableEq, Repr

/-- The accumulating pass of `kpis` over `visibleRows`:
`totalKg += weight`; `preAllocatedKg += weight` when the row is flagged;
after an explicit `Number.isNaN(etaTime)` early return, `unallocatedKg7d`
collects unflagged rows with `FIXED_NOW < eta <= FIXED_NOW + 7 days`. -/
def kpisStep (alloc : String → Bool) (acc : ℚ × ℚ × ℚ) (row : PalletRow) :
    ℚ × ℚ × ℚ :=
  let w := row.line_weight_kg.getD 0
  let t := acc.1 + w
  let p := if alloc row.stableKey then acc.2.1 + w else acc.2.1
  let u :=
    match row.etaDate with
    | none => acc.2.2
    | some ea =>
      if alloc row.stableKey = false ∧ FIXED_NOW < ea ∧
          ea ≤ FIXED_NOW + 604800000 then
        acc.2.2 + w
      else acc.2.2
  (t, p, u)

/-- The fold of the accumulating pass over `visibleRows`. -/
def kpisTotals (rows : List PalletRow) (alloc : String → Bool) : ℚ × ℚ × ℚ :=
  rows.foldl (kpisStep alloc) (0, 0, 0)

/-- The `kpis` memo of src/app/layout.tsx: the totals plus the zero-guarded
percentages (`totalKg > 0 ? x / totalKg * 100 : 0`). -/
def kpis (rows : List PalletRow) (alloc : String → Bool) : Kpis :=
  let acc := kpisTotals rows alloc
  { totalKg := acc.1
    preAllocatedKg := acc.2.1
    unallocatedKg7d := acc.2.2
    pctPreAllocated := if 0 < acc.1 then acc.2.1 / acc.1 * 100 else 0
    pctUnallocated7d := if 0 < acc.1 then acc.2.2 / acc.1 * 100 else 0 }

/-- One group of the arrivals summary.  The distinct container/shipment sets
of the source only feed separate count columns and are omitted; the group
identity, line count and accumulated weight are kept. -/
structure SummaryGroup where
  port_destination : String
  daysToArrival : JSTime
  totalKg : ℚ
  lines : Nat
deriving DecidableEq, Repr

/-- Whether `arrivalsSummary` places a row in a group: the two early
returns `if (diffMs <= 0) return` and `if (daysToArrival < 1) return`,
with JS `NaN` comparison semantics (both guards are false on `NaN`). -/
def summaryIncluded (row : PalletRow) : Bool :=
  let diffMs := jsSub row.etaDate FIXED_NOW
  if jsLe diffMs (some 0) then false
  else if jsLt (jsRoundDay diffMs) (some 1) then false
  else true

/-- Accumulate a row's weight into the group keyed by
`(port_destination, daysToArrival)`, creating the group on first sight.
The source keys its `Map` by the string `port + "__" + daysToArrival`;
the days component renders without an underscore, so that string key is in
bijection with this pair. -/
def updateGroups : List SummaryGroup → String → JSTime → ℚ → List SummaryGroup
  | [], p, d, w => [⟨p, d, w, 1⟩]
  | g :: gs, p, d, w =>
    if g.port_destination = p ∧ g.daysToArrival = d then
      ⟨g.port_destination, g.daysToArrival, g.totalKg + w, g.lines + 1⟩ :: gs
    else g :: updateGroups gs p d w

/-- The grouping pass of `arrivalsSummary` over the filtered rows, in
`Map` insertion order.  (The source then sorts the groups for display,
which permutes them without changing membership or weights.) -/
def arrivalsSummaryGroups (rows : List PalletRow) : List SummaryGroup :=
  rows.foldl
    (fun acc row =>
      if summaryIncluded row then
        updateGroups acc row.port_destination
          (jsRoundDay (jsSub row.etaDate FIXED_NOW))
          (row.line_weight_kg.getD 0)
      else acc)
    []

/-- The value `totals.totalKg` of `arrivalsSummary`:
`groups.reduce((sum, group) => sum + group.totalKg, 0)`. -/
def summaryTotalKg (groups : List SummaryGroup) : ℚ :=
  (groups.map SummaryGroup.totalKg).sum

/-! ## CSV exporter (src/app/layout.tsx, `escapeCsv`) -/

/-- The double-quote character. -/
def dq : Char := Char.ofNat 34

/-- The newline character. -/
def nl : Char := Char.ofNat 10

/-- The test `text.includes(",") || text.includes('"') || text.includes("\n")`. -/
def hasCsvSpecial (text : String) : Bool :=
  decide (',' ∈ text.data) || decide (dq ∈ text.data) || decide (nl ∈ text.data)

/-- Model of `text.replace(/"/g, '""')`: double every double-quote. -/
def escQuotes : List Char → List Char
  | [] => []
  | c :: cs =>
    if c = dq then dq :: dq :: escQuotes cs else c :: escQuotes cs

/-- The `escapeCsv` helper of src/app/layout.tsx (string fields; a numeric field is
stringified by the caller before reaching the escape test). -/
def escapeCsv (text : String) : String :=
  if hasCsvSpecial text then String.mk (dq :: (escQuotes text.data ++ [dq]))
  else text

/-- Collapse every doubled double-quote into a single one. -/
def collapseQuotes : List Char → List Char
  | [] => []
  | [c] => [c]
  | c1 :: c2 :: rest =>
    if c1 = dq ∧ c2 = dq then dq :: collapseQuotes rest
    else c1 :: collapseQuotes (c2 :: rest)

/-- Modelled from the spec: "unescaping (stripping the outer quotes and
collapsing doubled quotes)".  A field that starts and ends in a
double-quote is unwrapped and its doubled quotes collapsed; anything else
is returned unchanged.  (The source has no CSV reader; this is the
spec-side inverse used to state the round-trip property.) -/
def csvUnescape (s : String) : String :=
  match s.data with
  | c :: rest =>
    if c = dq ∧ rest.getLast? = some dq then String.mk (collapseQuotes rest.dropLast)
    else s
  | [] => s

/-! ## Shared concrete inputs for witnesses and counterexamples -/

/-- A well-formed enriched row: ETA at 5 ms, ETD at 0 ms. -/
def baseRow : PalletRow :=
  { shipment_id := "S", container_id := none, container_code := "C",
    port_destination := "P", variety := "V", caliber_raw := "K",
    pack_format_raw := "F", etd := "", eta := "",
    box_count := none, box_weight_kg := none, line_weight_kg := some 2,
    line_id := some 1, pallet_pl_id := none,
    etaDate := some 5, etdDate := some 0, stableKey := "S-C-1" }

/-- A raw record whose `eta` string is malformed. -/
def badEtaItem : PalletItem :=
  { shipment_id := "S", container_id := none, container_code := "C",
    port_destination := "P", variety := "V", caliber_raw := "K",
    pack_format_raw := "F", etd := "", eta := "garbage",
    box_count := none, box_weight_kg := none, line_weight_kg := some 2,
    line_id := some 1, pallet_pl_id := none }

/-- The enriched row of `badEtaItem`: its `etaDate` is the invalid date. -/
def nanRow : PalletRow := enrichOne badEtaItem 0

/-- The all-unconstrained criteria. -/
def emptyCriteria : FilterCriteria := ⟨"", "", "", "", "", false⟩

/-- A raw record with parseable (empty-string => invalid, unused here)
dates and line id 1. -/
def itemA : PalletItem :=
  { shipment_id := "S", container_id := none, container_code := "C",
    port_destination := "P", variety := "V1", caliber_raw := "K",
    pack_format_raw := "F", etd := "", eta := "",
    box_count := none, box_weight_kg := none, line_weight_kg := none,
    line_id := some 1, pallet_pl_id := none }

/-- Same identifiers as `itemA`, different variety: a key collision. -/
def itemB : PalletItem := { itemA with variety := "V2" }

/-- Same as `itemA` with a distinct line id: distinct keys. -/
def itemC : PalletItem := { itemA with line_id := some 2 }

/-! ## C1 / C10: the status classifier -/

/-- C1: on parseable dates, `computeStatus` returns exactly one of the three
statuses; it is `Arrived` iff `eta < now` (strict), otherwise `At sea` iff
`etd ≤ now ≤ eta` (both bounds inclusive), otherwise `Scheduled`.  In
particular `eta = now` is never `Arrived`, and `etd = eta = now` is
`At sea`. -/
theorem computeStatus_total_partition (item : PalletRow) (now : JSTime)
    (ea ed n : Int) (hea : item.etaDate = some ea)
    (hed : item.etdDate = some ed) (hn : now = some n) :
    (computeStatus item now = .arrived ∨ computeStatus item now = .atSea ∨
      computeStatus item now = .scheduled)
    ∧ (computeStatus item now = .arrived ↔ ea < n)
    ∧ (computeStatus item now = .atSea ↔ (¬ ea < n ∧ ed ≤ n ∧ n ≤ ea))
    ∧ (computeStatus item now = .scheduled ↔
        (¬ ea < n ∧ ¬ (ed ≤ n ∧ n ≤ ea))) := by
  subst hn
  simp only [computeStatus, jsLt, jsLe, hea, hed]
  refine ⟨?_, ?_, ?_, ?_⟩ <;>
    (split_ifs with h1 h2 <;> simp_all)

/-- C1 witness: at `etd = 0 ≤ now = 5 = eta` the status is `At sea`. -/
theorem computeStatus_total_partition_witness :
    computeStatus baseRow (some 5) = Status.atSea :=
  ((computeStatus_total_partition baseRow (some 5) 5 0 5 rfl rfl
    rfl).2.2.1).mpr (by omega)

/-- C10: with an unparseable `eta` the status is always `Scheduled` (every
comparison against `NaN` is false); with only `etd` unparseable the status
is `Arrived` exactly when `eta < now` and `Scheduled` otherwise — never
`At sea`.  (`computeStatus` is a total function, so it never throws.) -/
theorem computeStatus_invalid_dates (item : PalletRow) (now : JSTime) :
    (item.etaDate = none → computeStatus item now = .scheduled)
    ∧ (∀ ea n, item.etdDate = none → item.etaDate = some ea → now = some n →
        computeStatus item now = if ea < n then .arrived else .scheduled) := by
  constructor
  · intro h
    simp only [computeStatus, h]
    cases now <;> simp [jsLt, jsLe]
  · intro ea n hed hea hn
    subst hn
    simp only [computeStatus, hed, hea, jsLt, jsLe]
    split_ifs with h1 h2 <;> simp_all

/-- C10 witness: a `NaN` ETA yields `Scheduled`; a `NaN` ETD with a past ETA
yields `Arrived`. -/
theorem computeStatus_invalid_dates_witness :
    computeStatus nanRow (some 5) = Status.scheduled ∧
    computeStatus { baseRow with etdDate := none } (some 9) = Status.arrived := by
  constructor
  · exact (computeStatus_invalid_dates nanRow (some 5)).1 rfl
  · rw [(computeStatus_invalid_dates { baseRow with etdDate := none }
      (some 9)).2 5 9 rfl rfl rfl]
    decide

/-! ## C2: the filter is an order-preserving, idempotent subsequence -/

/-- C2: `applyFilters` returns a sublist of its input (hence a subsequence
in the original relative order), and filtering twice with the same criteria
and reference time changes nothing. -/
theorem applyFilters_sublist_idempotent (rows : List PalletRow)
    (C : FilterCriteria) (now : JSTime) :
    (applyFilters rows C now).Sublist rows ∧
    applyFilters (applyFilters rows C now) C now = applyFilters rows C now := by
  constructor
  · exact List.filter_sublist rows
  · simp [applyFilters, List.filter_filter]

/-! ## C3: the "next arrivals only" window -/

/-- A surviving row must pass the predicate of the filter callback. -/
lemma rowPasses_of_mem_applyFilters {rows : List PalletRow}
    {C : FilterCriteria} {now : JSTime} {r : PalletRow}
    (h : r ∈ applyFilters rows C now) :
    rowPasses C (toDateOrNull C.etaFrom false) (toDateOrNull C.etaTo true)
      now (jsAddWeek now) r = true :=
  (List.mem_filter.mp h).2

/-- When `nextArrivalsOnly` is set, a passing row passed the window check. -/
lemma window_check_of_rowPasses {C : FilterCriteria}
    {f t : Option JSTime} {now w : JSTime} {r : PalletRow}
    (hN : C.nextArrivalsOnly = true)
    (h : rowPasses C f t now w r = true) :
    (jsLt now r.etaDate && jsLe r.etaDate w) = true := by
  unfold rowPasses at h
  split_ifs at h with h1 h2 h3 h4 h5 h6
  cases hc : (jsLt now r.etaDate && jsLe r.etaDate w) with
  | true => rfl
  | false => exact absurd ⟨hN, hc⟩ h6

/-- C3: a row surviving `applyFilters` with `nextArrivalsOnly` set satisfies
the helper `isEtaWithinSevenDays` (so its parsed ETA is valid); on parsed
values the window is `now < eta ≤ now + 7·24h` — strict lower bound,
inclusive upper bound; and the filter's window check coincides with
`isEtaWithinSevenDays` (`0 < eta − now ≤ 604800000 ms`) on all inputs. -/
theorem nextArrivalsOnly_window (rows : List PalletRow) (C : FilterCriteria)
    (now : JSTime) (r : PalletRow) (hN : C.nextArrivalsOnly = true)
    (hr : r ∈ applyFilters rows C now) :
    isEtaWithinSevenDays r.etaDate now = true
    ∧ (∀ ea n, r.etaDate = some ea → now = some n →
        n < ea ∧ ea ≤ n + 604800000)
    ∧ (∀ eta t : JSTime,
        (jsLt t eta && jsLe eta (jsAddWeek t)) = isEtaWithinSevenDays eta t) := by
  have hco : ∀ eta t : JSTime,
      (jsLt t eta && jsLe eta (jsAddWeek t)) = isEtaWithinSevenDays eta t := by
    intro eta t
    cases eta <;> cases t <;>
      simp [jsLt, jsLe, jsAddWeek, isEtaWithinSevenDays] <;>
      (rw [Bool.eq_iff_iff]; simp; omega)
  have hw := window_check_of_rowPasses hN (rowPasses_of_mem_applyFilters hr)
  refine ⟨by rw [← hco]; exact hw, ?_, hco⟩
  intro ea n hea hn
  subst hn
  rw [hea] at hw
  simp [jsLt, jsLe, jsAddWeek] at hw
  omega

/-- C3 witness: with `now = 0` the row with ETA 5 survives the
"next arrivals only" filter and lies in the window. -/
theorem nextArrivalsOnly_window_witness :
    isEtaWithinSevenDays baseRow.etaDate (some 0) = true :=
  (nextArrivalsOnly_window [baseRow]
    { emptyCriteria with nextArrivalsOnly := true } (some 0) baseRow rfl
    (by decide)).1

/-! ## C4: rows with unparseable dates vs. the date-range filter -/

/-- C4 counterexample: the claim says a row with an unparseable ETA is
excluded whenever a date bound is set; but with `etaFrom = "2025-01-01"`
the `NaN` row survives, because `item.etaDate < etaFromDate` and
`item.etaDate > etaToDate` are both false on `NaN`. -/
theorem dateRange_nan_counterexample :
    nanRow.etaDate = none
    ∧ { emptyCriteria with etaFrom := "2025-01-01" }.etaFrom ≠ ""
    ∧ applyFilters [nanRow] { emptyCriteria with etaFrom := "2025-01-01" }
        (some 0) = [nanRow] := by
  refine ⟨rfl, by decide, ?_⟩
  decide

/-- C4 amended: a row whose parsed ETA is the invalid date is never excluded
by the `etaFrom`/`etaTo` bounds — whatever they are, the row survives
`applyFilters` as long as the remaining criteria (port/variety/caliber
matching or unset, `nextArrivalsOnly` off) admit it. -/
theorem dateRange_ignores_invalid_eta (rows : List PalletRow)
    (C : FilterCriteria) (now : JSTime) (r : PalletRow)
    (hr : r ∈ rows) (hnan : r.etaDate = none)
    (hport : C.port = "" ∨ r.port_destination = C.port)
    (hvar : C.variety = "" ∨ r.variety = C.variety)
    (hcal : C.caliber = "" ∨ r.caliber_raw = C.caliber)
    (hnext : C.nextArrivalsOnly = false) :
    r ∈ applyFilters rows C now := by
  refine List.mem_filter.mpr ⟨hr, ?_⟩
  unfold rowPasses
  have hlt : ∀ d : JSTime, jsLt r.etaDate d = false := by
    intro d
    rw [hnan]
    cases d <;> rfl
  have hlt' : ∀ d : JSTime, jsLt d r.etaDate = false := by
    intro d
    rw [hnan]
    cases d <;> rfl
  split_ifs with h1 h2 h3 h4 h5 h6
  · rcases hport with h | h
    · exact absurd h h1.1
    · exact absurd h h1.2
  · rcases hvar with h | h
    · exact absurd h h2.1
    · exact absurd h h2.2
  · rcases hcal with h | h
    · exact absurd h h3.1
    · exact absurd h h3.2
  · cases hf : toDateOrNull C.etaFrom false with
    | none => rw [hf] at h4; simp at h4
    | some d => rw [hf] at h4; simp [hlt d] at h4
  · cases ht : toDateOrNull C.etaTo true with
    | none => rw [ht] at h5; simp at h5
    | some d => rw [ht] at h5; simp [hlt' d] at h5
  · rw [hnext] at h6
    simp at h6
  · rfl

/-- C4 amended witness: the `NaN` row survives a filter with a non-empty
lower ETA bound. -/
theorem dateRange_ignores_invalid_eta_witness :
    nanRow ∈ applyFilters [nanRow]
      { emptyCriteria with etaFrom := "2025-01-01" } (some 0) :=
  dateRange_ignores_invalid_eta [nanRow] _ (some 0) nanRow (by decide) rfl
    (Or.inl rfl) (Or.inl rfl) (Or.inl rfl) rfl

/-! ## C5: the arrivals summary and unparseable ETAs -/

/-- C5 (code bug): the claim — matching the adjacent `kpis` code, which
explicitly guards with `Number.isNaN` — says rows with an unparseable ETA
never appear in any arrivals-summary group.  But in `arrivalsSummary` both
early returns (`diffMs <= 0`, `daysToArrival < 1`) compare against `NaN`,
which is false, so the `NaN` row falls through and is accumulated in a group
keyed by a `NaN` days-to-arrival, carrying its weight. -/
theorem arrivalsSummary_nan_eta_grouped :
    nanRow.etaDate = none
    ∧ summaryIncluded nanRow = true
    ∧ arrivalsSummaryGroups [nanRow] =
        [{ port_destination := "P", daysToArrival := none,
           totalKg := 2, lines := 1 }] := by
  refine ⟨rfl, rfl, ?_⟩
  decide

/-! ## C8: KPI totals -/

/-- The spec-side reference value: the summed line weight (missing weights
as 0) of the visible rows not flagged allocated. -/
def unallocatedWeight (rows : List PalletRow) (alloc : String → Bool) : ℚ :=
  ((rows.filter (fun r => alloc r.stableKey = false)).map
    (fun r => r.line_weight_kg.getD 0)).sum

/-- The running difference `totalKg − preAllocatedKg` grows by exactly the
weight of each unallocated row. -/
lemma foldl_kpisStep_diff (alloc : String → Bool) :
    ∀ (rows : List PalletRow) (acc : ℚ × ℚ × ℚ),
      (rows.foldl (kpisStep alloc) acc).1 - (rows.foldl (kpisStep alloc) acc).2.1
        = acc.1 - acc.2.1 + unallocatedWeight rows alloc := by
  intro rows
  induction rows with
  | nil => intro acc; simp [unallocatedWeight]
  | cons r rs ih =>
    intro acc
    rw [List.foldl_cons, ih]
    by_cases h : alloc r.stableKey
    · simp [kpisStep, h, unallocatedWeight, List.filter_cons]
    · simp [kpisStep, h, unallocatedWeight, List.filter_cons]
      ring

/-- C8: the KPI totals satisfy
`totalKg = preAllocatedKg + (weight of visible unallocated rows)`, and a
zero `totalKg` yields both percentages exactly 0 (the `totalKg > 0`
ternary guard). -/
theorem kpis_consistent (rows : List PalletRow) (alloc : String → Bool) :
    (kpis rows alloc).totalKg
      = (kpis rows alloc).preAllocatedKg + unallocatedWeight rows alloc
    ∧ ((kpis rows alloc).totalKg = 0 →
        (kpis rows alloc).pctPreAllocated = 0 ∧
        (kpis rows alloc).pctUnallocated7d = 0) := by
  constructor
  · have h := foldl_kpisStep_diff alloc rows (0, 0, 0)
    simp only [kpis, kpisTotals] at h ⊢
    linarith
  · intro h
    simp only [kpis, kpisTotals] at h ⊢
    rw [h]
    simp

/-- C8 witness: the identity at a one-row list, and the zero-total
percentage guard at the empty list. -/
theorem kpis_consistent_witness :
    (kpis [baseRow] (fun _ => false)).totalKg
      = (kpis [baseRow] (fun _ => false)).preAllocatedKg
        + unallocatedWeight [baseRow] (fun _ => false)
    ∧ (kpis [] (fun _ => false)).pctPreAllocated = 0 :=
  ⟨(kpis_consistent [baseRow] (fun _ => false)).1,
    ((kpis_consistent [] (fun _ => false)).2 (by decide)).1⟩

/-! ## C9: CSV escaping -/

/-- A one-character double-quote string. -/
def dqs : String := String.mk [dq]

/-- The value `Acme, "Fresh"` of the claim. -/
def csvExampleIn : String := "Acme, " ++ dqs ++ "Fresh" ++ dqs

/-- Its expected escape `"Acme, ""Fresh"""`. -/
def csvExampleOut : String :=
  dqs ++ "Acme, " ++ dqs ++ dqs ++ "Fresh" ++ dqs ++ dqs ++ dqs

/-- Collapsing doubled quotes undoes quote doubling. -/
lemma collapseQuotes_escQuotes (cs : List Char) :
    collapseQuotes (escQuotes cs) = cs := by
  induction cs with
  | nil => rfl
  | cons c cs ih =>
    by_cases h : c = dq
    · subst h
      simp [escQuotes, collapseQuotes, ih]
    · cases e : escQuotes cs with
      | nil =>
        have hcs : cs = [] := by
          have h2 := ih
          rw [e] at h2
          simpa [collapseQuotes] using h2.symm
        subst hcs
        simp [escQuotes, h, collapseQuotes]
      | cons d rest =>
        rw [show escQuotes (c :: cs) = c :: escQuotes cs from by
          simp [escQuotes, h], e]
        rw [show collapseQuotes (c :: d :: rest)
            = c :: collapseQuotes (d :: rest) from by
          simp [collapseQuotes, h]]
        rw [← e, ih]

/-- A string is its own character data. -/
lemma string_mk_data (s : String) : String.mk s.data = s := by
  cases s
  rfl

/-- C9: `escapeCsv` wraps and doubles quotes exactly when the text contains
a comma, a double-quote or a newline, and returns the text unchanged
otherwise; the concrete value `Acme, "Fresh"` escapes to
`"Acme, ""Fresh"""`; and stripping the outer quotes and collapsing doubled
quotes (`csvUnescape`) recovers the original string for every input. -/
theorem escapeCsv_roundtrip (s : String) :
    escapeCsv s = (if hasCsvSpecial s = true then
        String.mk (dq :: (escQuotes s.data ++ [dq])) else s)
    ∧ csvUnescape (escapeCsv s) = s
    ∧ escapeCsv csvExampleIn = csvExampleOut := by
  refine ⟨rfl, ?_, by decide⟩
  by_cases h : hasCsvSpecial s = true
  · rw [show escapeCsv s = String.mk (dq :: (escQuotes s.data ++ [dq])) from by
      simp [escapeCsv, h]]
    unfold csvUnescape
    simp [List.getLast?_concat, List.dropLast_concat,
      collapseQuotes_escQuotes, string_mk_data]
  · have hs : escapeCsv s = s := by simp [escapeCsv, h]
    rw [hs]
    have hdq : dq ∉ s.data := by
      intro hmem
      exact h (by simp [hasCsvSpecial, hmem])
    unfold csvUnescape
    cases hd : s.data with
    | nil => rfl
    | cons c rest =>
      have hc : ¬(c = dq ∧ rest.getLast? = some dq) := by
        rintro ⟨rfl, -⟩
        exact hdq (hd ▸ List.mem_cons_self dq rest)
      simp [hc]

/-! ## C7: the stable key -/

/-- A string without the hyphen used as the key separator. -/
abbrev noHyphen (s : String) : Prop := '-' ∉ s.data

/-- The three components joined by the stable key. -/
def keyTriple (it : PalletItem) (i : Nat) : String × String × String :=
  (it.shipment_id, containerKeyPart it, lineKeyPart it i)

/-- Joining a component triple with hyphens. -/
def renderKey (t : String × String × String) : String :=
  t.1 ++ "-" ++ t.2.1 ++ "-" ++ t.2.2

/-- The component triples of a dataset, in order, with positional indices. -/
def tripleList : Nat → List PalletItem → List (String × String × String)
  | _, [] => []
  | i, it :: rest => keyTriple it i :: tripleList (i + 1) rest

/-- The stable keys of the enriched rows are exactly the rendered component
triples of the records (a function of the records and their order alone). -/
lemma sourceDataAux_keys :
    ∀ (items : List PalletItem) (i : Nat),
      (sourceDataAux i items).map PalletRow.stableKey
        = (tripleList i items).map renderKey := by
  intro items
  induction items with
  | nil => intro i; rfl
  | cons it rest ih =>
    intro i
    simp only [sourceDataAux, tripleList, List.map_cons, ih]
    rfl

/-- Splitting at a separator absent from both prefixes is unambiguous. -/
lemma append_hyphen_inj :
    ∀ (a a' b b' : List Char), '-' ∉ a → '-' ∉ a' →
      a ++ '-' :: b = a' ++ '-' :: b' → a = a' ∧ b = b' := by
  intro a
  induction a with
  | nil =>
    intro a' b b' _ ha' h
    cases a' with
    | nil => simpa using h
    | cons c rest =>
      exfalso
      apply ha'
      have hc : c = '-' := by
        have := congrArg (fun l => l.head?) h
        simpa using this.symm
      rw [hc]
      exact List.mem_cons_self _ _
  | cons c restA ih =>
    intro a' b b' ha ha' h
    cases a' with
    | nil =>
      exfalso
      apply ha
      have hc : c = '-' := by
        have := congrArg (fun l => l.head?) h
        simpa using this
      rw [hc]
      exact List.mem_cons_self _ _
    | cons c' rest' =>
      have hc : c = c' := by
        have := congrArg (fun l => l.head?) h
        simpa using this
      have htail : restA ++ '-' :: b = rest' ++ '-' :: b' := by
        have := congrArg List.tail h
        simpa using this
      have hrec := ih rest' b b'
        (fun hm => ha (List.mem_cons_of_mem _ hm))
        (fun hm => ha' (List.mem_cons_of_mem _ hm)) htail
      exact ⟨by rw [hc, hrec.1], hrec.2⟩

/-- Hyphen-free shipment and container components make the rendered key
injective (the line component may be arbitrary: it is the unique suffix
after the second separator). -/
lemma renderKey_inj (t t' : String × String × String)
    (h1 : noHyphen t.1) (h2 : noHyphen t.2.1)
    (h1' : noHyphen t'.1) (h2' : noHyphen t'.2.1)
    (h : renderKey t = renderKey t') : t = t' := by
  obtain ⟨a, b, c⟩ := t
  obtain ⟨a', b', c'⟩ := t'
  have hd : a.data ++ '-' :: (b.data ++ '-' :: c.data)
      = a'.data ++ '-' :: (b'.data ++ '-' :: c'.data) := by
    have hdata := congrArg String.data h
    simpa [renderKey, String.data_append, List.append_assoc] using hdata
  have step1 := append_hyphen_inj a.data a'.data _ _ h1 h1' hd
  have step2 := append_hyphen_inj b.data b'.data _ _ h2 h2' step1.2
  refine Prod.ext ?_ (Prod.ext ?_ ?_) <;> simp only
  · exact String.ext step1.1
  · exact String.ext step2.1
  · exact String.ext step2.2

/-- C7 counterexample: the claim asserts key uniqueness for every dataset,
but two records sharing shipment id, container id and line id (differing in
variety) render identical stable keys. -/
theorem stableKey_not_unique_counterexample :
    itemA ≠ itemB
    ∧ ¬ ((sourceData [itemA, itemB]).map PalletRow.stableKey).Pairwise
        (· ≠ ·) := by
  constructor
  · decide
  · decide

/-- C7 amended: the stable keys are the rendered `(shipment, container or
code, line id or index)` triples — deterministic in the records and their
order — and they are pairwise distinct provided the triples are pairwise
distinct and the shipment and container components contain no hyphen. -/
theorem stableKey_deterministic_unique (items : List PalletItem)
    (Hh : ∀ t ∈ tripleList 0 items, noHyphen t.1 ∧ noHyphen t.2.1)
    (Hd : (tripleList 0 items).Pairwise (· ≠ ·)) :
    (sourceData items).map PalletRow.stableKey
      = (tripleList 0 items).map renderKey
    ∧ ((sourceData items).map PalletRow.stableKey).Pairwise (· ≠ ·) := by
  have hkeys : (sourceData items).map PalletRow.stableKey
      = (tripleList 0 items).map renderKey := sourceDataAux_keys items 0
  refine ⟨hkeys, ?_⟩
  rw [hkeys, List.pairwise_map]
  refine Hd.imp_of_mem ?_
  intro t t' ht ht' hne hkey
  exact hne (renderKey_inj t t' (Hh t ht).1 (Hh t ht).2
    (Hh t' ht').1 (Hh t' ht').2 hkey)

/-- C7 amended witness: two records with distinct line ids get distinct
keys. -/
theorem stableKey_deterministic_unique_witness :
    ((sourceData [itemA, itemC]).map PalletRow.stableKey).Pairwise (· ≠ ·) :=
  (stableKey_deterministic_unique [itemA, itemC] (by decide) (by decide)).2

/-! ## C6: sorting — generic facts about the stable sort -/

section StableSortFacts

variable {α : Type _}

/-- Inserting permutes: the result holds the new element and the old ones. -/
lemma stableInsert_perm (lt : α → α → Bool) (a : α) :
    ∀ l : List α, (stableInsert lt a l).Perm (a :: l) := by
  intro l
  induction l with
  | nil => exact List.Perm.refl _
  | cons b t ih =>
    rw [stableInsert]
    by_cases h : lt a b = true
    · simp [h]
    · simp only [h, if_false]
      exact (ih.cons b).trans (List.Perm.swap a b t)

/-- The insertion fold permutes its input onto the accumulator. -/
lemma foldl_stableInsert_perm (lt : α → α → Bool) :
    ∀ l acc : List α,
      (l.foldl (fun acc a => stableInsert lt a acc) acc).Perm (l ++ acc) := by
  intro l
  induction l with
  | nil => intro acc; simp
  | cons a t ih =>
    intro acc
    rw [List.foldl_cons]
    refine (ih (stableInsert lt a acc)).trans ?_
    refine (List.Perm.append_left t (stableInsert_perm lt a acc)).trans ?_
    exact List.perm_middle

/-- The stable sort is a permutation. -/
lemma stableSort_perm (lt : α → α → Bool) (l : List α) :
    (stableSort lt l).Perm l := by
  have h := foldl_stableInsert_perm lt l []
  simpa [stableSort] using h

/-- Insertion only consults the order on the inserted element and the list
elements. -/
lemma stableInsert_congr (lt lt' : α → α → Bool) (a : α) :
    ∀ l : List α, (∀ b ∈ l, lt a b = lt' a b) →
      stableInsert lt a l = stableInsert lt' a l := by
  intro l
  induction l with
  | nil => intro _; rfl
  | cons b t ih =>
    intro h
    rw [stableInsert, stableInsert, h b (List.mem_cons_self b t)]
    by_cases hb : lt' a b = true
    · simp [hb]
    · simp only [hb, if_false]
      rw [ih (fun c hc => h c (List.mem_cons_of_mem b hc))]

/-- The sort only consults the order on elements of the input list. -/
lemma foldl_stableInsert_congr (lt lt' : α → α → Bool) (S : List α)
    (H : ∀ a ∈ S, ∀ b ∈ S, lt a b = lt' a b) :
    ∀ l acc : List α, (∀ x ∈ l, x ∈ S) → (∀ x ∈ acc, x ∈ S) →
      l.foldl (fun acc a => stableInsert lt a acc) acc
        = l.foldl (fun acc a => stableInsert lt' a acc) acc := by
  intro l
  induction l with
  | nil => intro acc _ _; rfl
  | cons a t ih =>
    intro acc hl hacc
    rw [List.foldl_cons, List.foldl_cons]
    have ha : a ∈ S := hl a (List.mem_cons_self a t)
    have hins : stableInsert lt a acc = stableInsert lt' a acc :=
      stableInsert_congr lt lt' a acc (fun b hb => H a ha b (hacc b hb))
    rw [hins]
    refine ih (stableInsert lt' a acc)
      (fun x hx => hl x (List.mem_cons_of_mem a hx)) ?_
    intro x hx
    rcases List.mem_cons.mp ((stableInsert_perm lt' a acc).mem_iff.mp hx) with
      rfl | hx'
    · exact ha
    · exact hacc x hx'

/-- Congruence for `stableSort` under agreement on the input's elements. -/
lemma stableSort_congr (lt lt' : α → α → Bool) (l : List α)
    (H : ∀ a ∈ l, ∀ b ∈ l, lt a b = lt' a b) :
    stableSort lt l = stableSort lt' l :=
  foldl_stableInsert_congr lt lt' l H l [] (fun _ hx => hx)
    (fun _ hx => absurd hx (List.not_mem_nil _))

/-- Inserting into a list with no inversions yields no inversions, given
asymmetry and transitivity on a carrier of all involved elements. -/
lemma stableInsert_pairwise (lt : α → α → Bool) (S : List α)
    (Hasym : ∀ a ∈ S, ∀ b ∈ S, lt a b = true → lt b a = false)
    (Htrans : ∀ a ∈ S, ∀ b ∈ S, ∀ c ∈ S,
      lt a b = true → lt b c = true → lt a c = true)
    (a : α) (ha : a ∈ S) :
    ∀ l : List α, (∀ x ∈ l, x ∈ S) →
      l.Pairwise (fun x y => lt y x = false) →
      (stableInsert lt a l).Pairwise (fun x y => lt y x = false) := by
  intro l
  induction l with
  | nil =>
    intro _ _
    simp [stableInsert]
  | cons b t ih =>
    intro hmem hp
    rw [stableInsert]
    have hb : b ∈ S := hmem b (List.mem_cons_self b t)
    rcases List.pairwise_cons.mp hp with ⟨hbt, hpt⟩
    by_cases h : lt a b = true
    · rw [if_pos h]
      refine List.pairwise_cons.mpr ⟨?_, hp⟩
      intro x hx
      cases hxa : lt x a with
      | false => rfl
      | true =>
        exfalso
        rcases List.mem_cons.mp hx with rfl | hxt
        · rw [Hasym a ha x hb h] at hxa
          exact Bool.false_ne_true hxa
        · have hxS : x ∈ S := hmem x (List.mem_cons_of_mem b hxt)
          have hxb : lt x b = true := Htrans x hxS a ha b hb hxa h
          rw [hbt x hxt] at hxb
          exact Bool.false_ne_true hxb
    · rw [if_neg h]
      refine List.pairwise_cons.mpr
        ⟨?_, ih (fun x hx => hmem x (List.mem_cons_of_mem b hx)) hpt⟩
      intro x hx
      rcases List.mem_cons.mp ((stableInsert_perm lt a t).mem_iff.mp hx) with
        rfl | hxt
      · cases hab : lt x b with
        | false => rfl
        | true => exact absurd hab h
      · exact hbt x hxt

/-- The insertion fold preserves "no inversions". -/
lemma foldl_stableInsert_pairwise (lt : α → α → Bool) (S : List α)
    (Hasym : ∀ a ∈ S, ∀ b ∈ S, lt a b = true → lt b a = false)
    (Htrans : ∀ a ∈ S, ∀ b ∈ S, ∀ c ∈ S,
      lt a b = true → lt b c = true → lt a c = true) :
    ∀ l acc : List α, (∀ x ∈ l, x ∈ S) → (∀ x ∈ acc, x ∈ S) →
      acc.Pairwise (fun x y => lt y x = false) →
      (l.foldl (fun acc a => stableInsert lt a acc) acc).Pairwise
        (fun x y => lt y x = false) := by
  intro l
  induction l with
  | nil => intro acc _ _ hp; exact hp
  | cons a t ih =>
    intro acc hl hacc hp
    rw [List.foldl_cons]
    have ha : a ∈ S := hl a (List.mem_cons_self a t)
    refine ih (stableInsert lt a acc)
      (fun x hx => hl x (List.mem_cons_of_mem a hx)) ?_ ?_
    · intro x hx
      rcases List.mem_cons.mp ((stableInsert_perm lt a acc).mem_iff.mp hx) with
        rfl | hx'
      · exact ha
      · exact hacc x hx'
    · exact stableInsert_pairwise lt S Hasym Htrans a ha acc hacc hp

/-- The stable sort has no inversions, given asymmetry and transitivity on
the input's elements. -/
lemma stableSort_pairwise (lt : α → α → Bool) (l : List α)
    (Hasym : ∀ a ∈ l, ∀ b ∈ l, lt a b = true → lt b a = false)
    (Htrans : ∀ a ∈ l, ∀ b ∈ l, ∀ c ∈ l,
      lt a b = true → lt b c = true → lt a c = true) :
    (stableSort lt l).Pairwise (fun x y => lt y x = false) :=
  foldl_stableInsert_pairwise lt l Hasym Htrans l [] (fun _ hx => hx)
    (fun _ hx => absurd hx (List.not_mem_nil _)) List.Pairwise.nil

/-- Two lists that are permutations of each other, both without inversions
for a relation antisymmetric on their elements, coincide. -/
lemma eq_of_perm_of_pairwise (P : α → α → Prop) :
    ∀ l₁ l₂ : List α, l₁.Perm l₂ → l₁.Pairwise P → l₂.Pairwise P →
      (∀ a ∈ l₁, ∀ b ∈ l₁, P a b → P b a → a = b) → l₁ = l₂ := by
  intro l₁
  induction l₁ with
  | nil =>
    intro l₂ hperm _ _ _
    exact hperm.nil_eq
  | cons a t ih =>
    intro l₂ hperm hp1 hp2 hanti
    cases l₂ with
    | nil => exact absurd hperm.eq_nil (List.cons_ne_nil a t)
    | cons a' t' =>
      by_cases haa : a = a'
      · subst haa
        rw [ih t' hperm.cons_inv (List.pairwise_cons.mp hp1).2
          (List.pairwise_cons.mp hp2).2
          (fun x hx y hy => hanti x (List.mem_cons_of_mem a hx)
            y (List.mem_cons_of_mem a hy))]
      · exfalso
        have ha2 : a ∈ t' := by
          rcases List.mem_cons.mp
            (hperm.mem_iff.mp (List.mem_cons_self a t)) with h | h
          · exact absurd h haa
          · exact h
        have ha'1 : a' ∈ t := by
          rcases List.mem_cons.mp
            (hperm.symm.mem_iff.mp (List.mem_cons_self a' t')) with h | h
          · exact absurd h.symm haa
          · exact h
        have hPa : P a a' := (List.pairwise_cons.mp hp1).1 a' ha'1
        have hPa' : P a' a := (List.pairwise_cons.mp hp2).1 a ha2
        exact haa (hanti a (List.mem_cons_self a t)
          a' (List.mem_cons_of_mem a ha'1) hPa hPa')

end StableSortFacts

/-! ## C6: facts about the JS comparison key order -/

lemma charListLt_irrefl : ∀ l : List Char, charListLt l l = false := by
  intro l
  induction l with
  | nil => rfl
  | cons c cs ih => simp [charListLt, lt_irrefl, ih]

lemma charListLt_asymm :
    ∀ a b : List Char, charListLt a b = true → charListLt b a = false := by
  intro a
  induction a with
  | nil =>
    intro b h
    cases b with
    | nil => exact absurd h (by simp [charListLt])
    | cons d ds => rfl
  | cons c cs ih =>
    intro b h
    cases b with
    | nil => exact absurd h (by simp [charListLt])
    | cons d ds =>
      rw [charListLt] at h ⊢
      by_cases h1 : c < d
      · rw [if_neg (lt_asymm h1), if_pos h1]
      · by_cases h2 : d < c
        · rw [if_neg h1, if_pos h2] at h
          exact absurd h (by simp)
        · rw [if_neg h1, if_neg h2] at h
          rw [if_neg h2, if_neg h1]
          exact ih ds h

lemma charListLt_trans :
    ∀ a b c : List Char, charListLt a b = true → charListLt b c = true →
      charListLt a c = true := by
  intro a
  induction a with
  | nil =>
    intro b c h1 h2
    cases b with
    | nil => exact absurd h1 (by simp [charListLt])
    | cons y ys =>
      cases c with
      | nil => exact absurd h2 (by simp [charListLt])
      | cons z zs => rfl
  | cons x xs ih =>
    intro b c h1 h2
    cases b with
    | nil => exact absurd h1 (by simp [charListLt])
    | cons y ys =>
      cases c with
      | nil => exact absurd h2 (by simp [charListLt])
      | cons z zs =>
        rw [charListLt] at h1 h2 ⊢
        by_cases hxy : x < y
        · by_cases hyz : y < z
          · rw [if_pos (lt_trans hxy hyz)]
          · by_cases hzy : z < y
            · rw [if_neg hyz, if_pos hzy] at h2
              exact absurd h2 (by simp)
            · have hyzeq : y = z := le_antisymm (not_lt.mp hzy) (not_lt.mp hyz)
              subst hyzeq
              rw [if_pos hxy]
        · by_cases hyx : y < x
          · rw [if_neg hxy, if_pos hyx] at h1
            exact absurd h1 (by simp)
          · have hxyeq : x = y := le_antisymm (not_lt.mp hyx) (not_lt.mp hxy)
            subst hxyeq
            rw [if_neg hxy, if_neg hxy] at h1
            by_cases hxz : x < z
            · rw [if_pos hxz]
            · by_cases hzx : z < x
              · rw [if_neg hxz, if_pos hzx] at h2
                exact absurd h2 (by simp)
              · rw [if_neg hxz, if_neg hzx] at h2 ⊢
                exact ih ys zs h1 h2

lemma jsGt_irrefl (v : CmpVal) : jsGt v v = false := by
  cases v with
  | num q => simp [jsGt]
  | nan => rfl
  | str s => simp [jsGt, charListLt_irrefl]

lemma jsGt_asymm {u v : CmpVal} (h : jsGt u v = true) : jsGt v u = false := by
  cases u <;> cases v <;> simp [jsGt] at h ⊢
  · exact le_of_lt h
  · exact charListLt_asymm _ _ h

lemma jsGt_trans {u v w : CmpVal} (h1 : jsGt u v = true)
    (h2 : jsGt v w = true) : jsGt u w = true := by
  cases u <;> cases v <;> cases w <;> simp [jsGt] at h1 h2 ⊢
  · exact lt_trans h2 h1
  · exact charListLt_trans _ _ _ h2 h1

lemma jsStrictEq_not_gt {u v : CmpVal} (h : jsStrictEq u v = true) :
    jsGt u v = false ∧ jsGt v u = false := by
  cases u <;> cases v <;> simp [jsStrictEq] at h <;>
    simp [jsGt, h, charListLt_irrefl]

/-- The descending comparator orders `a` strictly before `b` exactly when
`a`'s key is strictly greater. -/
lemma ltRow_desc_char (alloc : String → Bool) (col : ColumnKey)
    (a b : PalletRow) :
    decide (sortCmp alloc col .desc a b < 0)
      = jsGt (getComparableValue a alloc col) (getComparableValue b alloc col) := by
  unfold sortCmp
  by_cases he : jsStrictEq (getComparableValue a alloc col)
      (getComparableValue b alloc col) = true
  · simp [he, (jsStrictEq_not_gt he).1]
  · by_cases hg : jsGt (getComparableValue a alloc col)
        (getComparableValue b alloc col) = true
    · simp [he, hg]
    · simp [he, hg]

/-- On rows whose keys are pairwise strictly comparable and self-equal, the
ascending comparator orders `a` strictly before `b` exactly when `b`'s key
is strictly greater. -/
lemma ltRow_asc_char (alloc : String → Bool) (col : ColumnKey)
    {S : List PalletRow}
    (H : ∀ a ∈ S, ∀ b ∈ S, a = b
        ∨ jsGt (getComparableValue a alloc col) (getComparableValue b alloc col) = true
        ∨ jsGt (getComparableValue b alloc col) (getComparableValue a alloc col) = true)
    (H2 : ∀ a ∈ S, jsStrictEq (getComparableValue a alloc col)
        (getComparableValue a alloc col) = true)
    {a b : PalletRow} (ha : a ∈ S) (hb : b ∈ S) :
    decide (sortCmp alloc col .asc a b < 0)
      = jsGt (getComparableValue b alloc col) (getComparableValue a alloc col) := by
  unfold sortCmp
  by_cases he : jsStrictEq (getComparableValue a alloc col)
      (getComparableValue b alloc col) = true
  · simp [he, (jsStrictEq_not_gt he).2]
  · by_cases hg : jsGt (getComparableValue a alloc col)
        (getComparableValue b alloc col) = true
    · simp [he, hg, jsGt_asymm hg]
    · rcases H a ha b hb with rfl | h | h
      · exact absurd (H2 a ha) he
      · exact absurd h hg
      · simp [he, hg, h]

/-! ## C6: the asc-then-desc reversal -/

/-- C6 counterexample: two distinct rows with equal comparison keys (same
variety).  `Array.prototype.sort` is stable (ES2019), so the tie keeps both
orders identical, while the reverse swaps them: descending after ascending
is not the exact reverse. -/
theorem sort_asc_desc_not_reverse_counterexample :
    baseRow ≠ { baseRow with shipment_id := "T" }
    ∧ sortRows (sortRows [baseRow, { baseRow with shipment_id := "T" }]
          (fun _ => false) .variety .asc) (fun _ => false) .variety .desc
      ≠ (sortRows [baseRow, { baseRow with shipment_id := "T" }]
          (fun _ => false) .variety .asc).reverse := by
  constructor
  · decide
  · decide

/-- C6 amended: when any two distinct rows of the filtered list have
strictly ordered comparison keys under the chosen column (one key strictly
greater than the other — which rules out ties and `NaN` keys, the cases on
which a stable sort and a reversal disagree), sorting the ascending result
descending yields its exact reverse. -/
theorem sortRows_asc_desc_reverse (rows : List PalletRow)
    (alloc : String → Bool) (col : ColumnKey)
    (H : ∀ a ∈ rows, ∀ b ∈ rows, a = b
        ∨ jsGt (getComparableValue a alloc col) (getComparableValue b alloc col) = true
        ∨ jsGt (getComparableValue b alloc col) (getComparableValue a alloc col) = true)
    (H2 : ∀ a ∈ rows, jsStrictEq (getComparableValue a alloc col)
        (getComparableValue a alloc col) = true) :
    sortRows (sortRows rows alloc col .asc) alloc col .desc
      = (sortRows rows alloc col .asc).reverse := by
  have hAsc : ∀ a ∈ rows, ∀ b ∈ rows,
      decide (sortCmp alloc col .asc a b < 0)
        = jsGt (getComparableValue b alloc col) (getComparableValue a alloc col) :=
    fun a ha b hb => ltRow_asc_char alloc col H H2 ha hb
  have hL : sortRows rows alloc col .asc
      = stableSort (fun a b : PalletRow =>
          decide (sortCmp alloc col .asc a b < 0)) rows := rfl
  have hLperm : (sortRows rows alloc col .asc).Perm rows := by
    rw [hL]; exact stableSort_perm _ rows
  have hLmem : ∀ x ∈ sortRows rows alloc col .asc, x ∈ rows :=
    fun x hx => hLperm.mem_iff.mp hx
  -- asymmetry and transitivity of the ascending order on the input rows
  have hasymA : ∀ a ∈ rows, ∀ b ∈ rows,
      decide (sortCmp alloc col .asc a b < 0) = true →
      decide (sortCmp alloc col .asc b a < 0) = false := by
    intro a ha b hb h
    rw [hAsc a ha b hb] at h
    rw [hAsc b hb a ha]
    exact jsGt_asymm h
  have htransA : ∀ a ∈ rows, ∀ b ∈ rows, ∀ c ∈ rows,
      decide (sortCmp alloc col .asc a b < 0) = true →
      decide (sortCmp alloc col .asc b c < 0) = true →
      decide (sortCmp alloc col .asc a c < 0) = true := by
    intro a ha b hb c hc h1 h2
    rw [hAsc a ha b hb] at h1
    rw [hAsc b hb c hc] at h2
    rw [hAsc a ha c hc]
    exact jsGt_trans h2 h1
  -- the ascending result has no ascending inversions
  have hLsorted : (sortRows rows alloc col .asc).Pairwise
      (fun x y => decide (sortCmp alloc col .asc y x < 0) = false) := by
    rw [hL]
    exact stableSort_pairwise _ rows hasymA htransA
  -- the descending pass equals the flipped ascending pass on these rows
  have h1 : sortRows (sortRows rows alloc col .asc) alloc col .desc
      = stableSort (fun a b : PalletRow =>
          decide (sortCmp alloc col .asc b a < 0))
          (sortRows rows alloc col .asc) := by
    refine stableSort_congr _ _ _ ?_
    intro a ha b hb
    rw [ltRow_desc_char alloc col a b,
      hAsc b (hLmem b hb) a (hLmem a ha)]
  rw [h1]
  -- the flipped pass has no descending inversions
  have hNsorted : (stableSort (fun a b : PalletRow =>
      decide (sortCmp alloc col .asc b a < 0))
      (sortRows rows alloc col .asc)).Pairwise
      (fun x y => decide (sortCmp alloc col .asc x y < 0) = false) := by
    refine stableSort_pairwise _ _ ?_ ?_
    · intro a ha b hb h
      exact hasymA b (hLmem b hb) a (hLmem a ha) h
    · intro a ha b hb c hc h1 h2
      exact htransA c (hLmem c hc) b (hLmem b hb) a (hLmem a ha) h2 h1
  -- the reversed ascending result is also free of descending inversions
  have hRevSorted : (sortRows rows alloc col .asc).reverse.Pairwise
      (fun x y => decide (sortCmp alloc col .asc x y < 0) = false) :=
    List.pairwise_reverse.mpr hLsorted
  -- both are permutations of the reversed ascending result
  have hNperm : (stableSort (fun a b : PalletRow =>
      decide (sortCmp alloc col .asc b a < 0))
      (sortRows rows alloc col .asc)).Perm
      (sortRows rows alloc col .asc).reverse :=
    (stableSort_perm _ _).trans (sortRows rows alloc col .asc).reverse_perm.symm
  -- a permutation-unique sorted form: conclude equality
  refine eq_of_perm_of_pairwise _ _ _ hNperm hNsorted hRevSorted ?_
  intro a ha b hb hab hba
  have haR : a ∈ rows := hLmem a (List.mem_reverse.mp (hNperm.mem_iff.mp ha))
  have hbR : b ∈ rows := hLmem b (List.mem_reverse.mp (hNperm.mem_iff.mp hb))
  rcases H a haR b hbR with h | h | h
  · exact h
  · exfalso
    rw [hAsc b hbR a haR, h] at hba
    simp at hba
  · exfalso
    rw [hAsc a haR b hbR, h] at hab
    simp at hab

/-- C6 amended witness: two rows with distinct variety keys sort to the
exact reverse when the direction is toggled. -/
theorem sortRows_asc_desc_reverse_witness :
    sortRows (sortRows [baseRow, { baseRow with variety := "W" }]
        (fun _ => false) .variety .asc) (fun _ => false) .variety .desc
      = (sortRows [baseRow, { baseRow with variety := "W" }]
          (fun _ => false) .variety .asc).reverse :=
  sortRows_asc_desc_reverse [baseRow, { baseRow with variety := "W" }]
    (fun _ => false) .variety (by decide) (by decide)
